import Mathlib

/-!
Verification of the set-combinatorics and enrichment core of the
`rnaseq-interactive-demo` repository.

The Python sources are embedded shallowly:

* strings are `List Char` (`Str`); Python `set[str]` is `Finset Str`;
* `venn_app.coerce_items` becomes `coerce_items` below, with `re.split`
  modelled by a character-by-character splitter (`splitP`): splitting on a
  run `[...]+` differs from single-character splitting only by extra empty
  parts, and every empty part is discarded by the `if s:` filter that
  follows, so the resulting set is unchanged;
* Python `str.strip` / `str.lower` are modelled by `pyStrip` / `pyLower`
  (ASCII case folding, which is what the identifiers handled by the app
  use);
* `venn_app.sets_to_intersections` and `venn_app.exclusive_to_each_set`
  become `sets_to_intersections` / `sorted_intersections` and
  `exclusive_to_each_set`; a Python dict of named sets is an ordered list
  of names plus a lookup function;
* the pandas sort `sort_values(["Size", "Sets"], ascending=[False, True])`
  is modelled by `insertionSort` with the corresponding relation (the
  claims below are about the resulting order, which any correct sorting
  algorithm produces);
* the `GOKEGG.py` run (filtering the annotation by the pasted gene list,
  grouping by term, and attaching p-values) becomes `filtered_rows`,
  `term_stats` and `gokegg_run`; `st.warning` followed by `st.stop` on an
  empty overlap is modelled as a run result carrying a warning flag and an
  empty table.
-/

/-- Python strings, viewed as lists of characters. -/
abbrev Str := List Char

/-! ### Item normalizer (`venn_app.coerce_items`, lines 13-37) -/

/-- Python `str.strip()`: remove leading and trailing whitespace. -/
def pyStrip (s : Str) : Str :=
  ((s.dropWhile Char.isWhitespace).reverse.dropWhile Char.isWhitespace).reverse

/-- Python `str.lower()` (ASCII case folding). -/
def pyLower (s : Str) : Str := s.map Char.toLower

/-- Split a string at every character satisfying `p` (the separator is
dropped).  `re.split` on a `[...]+` pattern additionally collapses runs of
separators, which only changes the empty parts; the caller filters those
out. -/
def splitP (p : Char → Bool) : Str → List Str
  | [] => [[]]
  | c :: cs =>
    if p c then [] :: splitP p cs
    else
      match splitP p cs with
      | [] => [[c]]
      | t :: ts => (c :: t) :: ts

/-- The `split_mode` options offered by the sidebar `selectbox`. -/
inductive SplitMode where
  | auto
  | newlines
  | commas
  | tabs
  | semicolons
  | pipes
deriving DecidableEq

/-- The separator class of the `Auto` mode: `[\n,\t;|]`. -/
def isAutoSep (c : Char) : Bool :=
  c == '\n' || c == ',' || c == '\t' || c == ';' || c == '|'

/-- Separator predicate selected by each split mode. -/
def sepOf : SplitMode → (Char → Bool)
  | .auto => isAutoSep
  | .newlines => (· == '\n')
  | .commas => (· == ',')
  | .tabs => (· == '\t')
  | .semicolons => (· == ';')
  | .pipes => (· == '|')

/-- The loop body of `coerce_items`: strip the part, lower-case it unless
matching case-sensitively, and keep it only if non-empty. -/
def clean1 (case_sensitive : Bool) (p : Str) : Option Str :=
  let s := pyStrip p
  let s2 := if case_sensitive then s else pyLower s
  if s2 = [] then none else some s2

/-- `venn_app.coerce_items`: tokenize raw text into a set of items. -/
def coerce_items (text : Str) (mode : SplitMode) (case_sensitive : Bool) :
    Finset Str :=
  if text = [] then ∅
  else ((splitP (sepOf mode) text).filterMap (clean1 case_sensitive)).toFinset

/-! ### The multi-column file branch of `venn_app.read_file_to_set`
(lines 50-53): the table cells are flattened row-major, cells that are
empty or equal to `"nan"` case-insensitively are dropped, the rest are
joined by newlines and fed to `coerce_items` in newline mode. -/

/-- The literal string `"nan"`. -/
def nanStr : Str := ['n', 'a', 'n']

/-- The cell filter `x and x.lower() != "nan"` on the flattened cells. -/
def keepCell (x : Str) : Bool := !(x == []) && !(pyLower x == nanStr)

/-- The multi-column branch of `read_file_to_set`, applied to the grid of
cell strings (`df.astype(str).values.ravel()` flattens row-major). -/
def multi_column_to_set (grid : List (List Str)) (case_sensitive : Bool) :
    Finset Str :=
  coerce_items (List.intercalate ['\n'] (grid.flatten.filter keepCell))
    .newlines case_sensitive

-- sanity checks on the tokenizer
example :
    coerce_items "a, b;c".toList .auto false =
      ({['a'], ['b'], ['c']} : Finset Str) := by decide
example :
    coerce_items "A\nnan\nB".toList .newlines false =
      ({['a'], ['n', 'a', 'n'], ['b']} : Finset Str) := by decide

/-! ### Multi-set intersection engine (`venn_app.sets_to_intersections`,
lines 59-71).  A Python dict of named sets is modelled as the ordered list
of its keys together with a lookup function. -/

/-- One row of the intersection table: the combination of set names, the
computed intersection (`inter_dict[comb_key]`), and the reported `Size`
column (`len(inter)`). -/
structure IRow where
  comb : List String
  inter : Finset Str
  size : ℕ
deriving DecidableEq

/-- `set.intersection(*(sets_dict[name] for name in comb))`: left fold of
binary intersection over a non-empty combination (Python raises on an
empty argument list; the engine only calls it with `k ≥ 1` names). -/
def interList (f : String → Finset Str) : List String → Finset Str
  | [] => ∅
  | n :: ns => ns.foldl (fun acc m => acc ∩ f m) (f n)

/-- All combinations generated by the double loop
`for k in range(1, len(names) + 1): for comb in combinations(names, k)`:
the order-preserving sublists of `names`, grouped by length `1, …, N`. -/
def allCombs (names : List String) : List (List String) :=
  (List.range names.length).flatMap fun k => List.sublistsLen (k + 1) names

/-- The rows appended to `data` (and `inter_dict`) by
`sets_to_intersections`, before the final sort. -/
def sets_to_intersections (names : List String) (f : String → Finset Str) :
    List IRow :=
  (allCombs names).map fun comb =>
    { comb := comb, inter := interList f comb, size := (interList f comb).card }

/-- The rendered combination label `" ∩ ".join(comb)`. -/
def rowLabel (comb : List String) : String := String.intercalate " ∩ " comb

/-- Kernel-computable code-point lexicographic comparison on character
lists; `strListLE_iff_le` below identifies it with the library order used
to state the claims (which is also Python string comparison). -/
def strListLE : List Char → List Char → Bool
  | [], _ => true
  | _ :: _, [] => false
  | a :: as, b :: bs =>
    if a < b then true
    else if b < a then false
    else strListLE as bs

/-- The sort key of `df.sort_values(["Size", "Sets"],
ascending=[False, True])`: size descending, then label ascending. -/
def rowRel (a b : IRow) : Prop :=
  b.size < a.size ∨
    (a.size = b.size ∧
      strListLE (rowLabel a.comb).toList (rowLabel b.comb).toList = true)

instance : DecidableRel rowRel := fun a b => by
  unfold rowRel; infer_instance

/-- The intersection table in the order in which `sets_to_intersections`
returns it (sorted by size descending, label ascending). -/
def sorted_intersections (names : List String) (f : String → Finset Str) :
    List IRow :=
  (sets_to_intersections names f).insertionSort rowRel

/-! ### Exclusive elements (`venn_app.exclusive_to_each_set`, lines
73-79). -/

/-- `set().union(*others)`: left fold of binary union starting from the
empty set. -/
def unionAll (l : List (Finset Str)) : Finset Str := l.foldl (· ∪ ·) ∅

/-- `venn_app.exclusive_to_each_set`: each key is mapped to its members
minus the union of all the other sets (`others` keeps every entry whose
key differs from `key`). -/
def exclusive_to_each_set (names : List String) (f : String → Finset Str)
    (key : String) : Finset Str :=
  f key \ unionAll ((names.filter fun k => k != key).map f)

/-! ### Enrichment run (`GOKEGG.py`, lines 59-78).  The annotation file is
the ordered list of its `(Term, GeneID)` rows; the pasted gene list is the
set of tokens.  The modelled variant is the one where the annotation file
has no `p-value` column, so line 78 sets every p-value to `1.0`
(p-values are embedded as rationals). -/

/-- `filtered_df = ann_df[ann_df["GeneID"].isin(gene_list)]`. -/
def filtered_rows (gene_list : Finset Str) (ann : List (String × Str)) :
    List (String × Str) :=
  ann.filter fun r => decide (r.2 ∈ gene_list)

/-- Order used by `groupby("Term")`, which sorts group keys ascending. -/
def strRel (a b : String) : Prop := strListLE a.toList b.toList = true

instance : DecidableRel strRel := fun a b => by
  unfold strRel; infer_instance

/-- `term_stats`: group the filtered annotation by term; `gene_count` is
the number of filtered rows of the term (`("GeneID", "count")` counts
rows, repetitions included); the p-value is `1.0` (no `p-value` column in
the file, line 78). -/
def term_stats (gene_list : Finset Str) (ann : List (String × Str)) :
    List (String × ℕ × ℚ) :=
  let fd := filtered_rows gene_list ann
  (((fd.map Prod.fst).dedup).insertionSort strRel).map fun t =>
    (t, (fd.filter fun r => r.1 == t).length, (1 : ℚ))

/-- Outcome of one `GOKEGG.py` run after the annotation is uploaded:
whether the `"No matching genes found in annotation."` warning fired
(`st.warning` followed by `st.stop`, which ends the run without a table),
and the enrichment table otherwise. -/
structure GoKeggRun where
  emptyOverlapWarned : Bool
  table : List (String × ℕ × ℚ)
deriving DecidableEq

/-- Lines 61-78 of `GOKEGG.py` as a function of the inputs. -/
def gokegg_run (gene_list : Finset Str) (ann : List (String × Str)) :
    GoKeggRun :=
  if (filtered_rows gene_list ann).isEmpty then
    { emptyOverlapWarned := true, table := [] }
  else
    { emptyOverlapWarned := false, table := term_stats gene_list ann }

/-- The background universe implicit in the script: the set of gene IDs
occurring in the annotation file. -/
def annGenes (ann : List (String × Str)) : Finset Str :=
  (ann.map Prod.snd).toFinset

/-- Number of distinct genes annotated to a term. -/
def term_size (ann : List (String × Str)) (t : String) : ℕ :=
  (((ann.filter fun r => r.1 == t).map Prod.snd).toFinset).card

/-- Modelled from the spec: the one-sided ("greater") exact-test p-value
of the 2×2 contingency table
`[[overlap, qs − overlap], [ts − overlap, us − qs − ts + overlap]]`, i.e.
the upper hypergeometric tail.  `GOKEGG.py` contains no such computation;
this definition is the comparison target for claim C4. -/
def hyperProb (N K n k : ℕ) : ℚ :=
  (K.choose k * (N - K).choose (n - k) : ℚ) / (N.choose n : ℚ)

/-- Modelled from the spec: `P(X ≥ overlap)` for
`X ~ Hypergeometric(us, ts, qs)`. -/
def fisherGreater (overlap qs ts us : ℕ) : ℚ :=
  ∑ k ∈ Finset.Icc overlap (min ts qs), hyperProb us ts qs k

-- sanity checks on the engines
example :
    (sets_to_intersections ["X", "Y"] fun _ => ({['a']} : Finset Str)).length
      = 3 := by decide
example :
    term_stats ({['g']} : Finset Str) [("T", ['g']), ("S", ['h'])] =
      [("T", 1, (1 : ℚ))] := by decide

/-! ### Character-level lemmas -/

theorem char_toNat_ofNat_small {m : ℕ} (h : m < 55296) :
    (Char.ofNat m).toNat = m := by
  unfold Char.ofNat
  rw [dif_pos (Or.inl h)]
  rfl

theorem toLower_toNat_of_upper {c : Char}
    (h : 65 ≤ c.toNat ∧ c.toNat ≤ 90) :
    (Char.toLower c).toNat = c.toNat + 32 := by
  unfold Char.toLower
  rw [if_pos h]
  exact char_toNat_ofNat_small (by omega)

theorem toLower_of_not_upper {c : Char}
    (h : ¬(65 ≤ c.toNat ∧ c.toNat ≤ 90)) : Char.toLower c = c := by
  unfold Char.toLower
  rw [if_neg h]

theorem toLower_toLower (c : Char) :
    Char.toLower (Char.toLower c) = Char.toLower c := by
  by_cases h : 65 ≤ c.toNat ∧ c.toNat ≤ 90
  · have h2 := toLower_toNat_of_upper h
    exact toLower_of_not_upper (by omega)
  · rw [toLower_of_not_upper h, toLower_of_not_upper h]

theorem char_ne_of_toNat_ne {c d : Char} (h : c.toNat ≠ d.toNat) :
    c ≠ d := fun e => h (congrArg Char.toNat e)

theorem isWhitespace_eq_false_of_toNat {c : Char} (h32 : c.toNat ≠ 32)
    (h9 : c.toNat ≠ 9) (h13 : c.toNat ≠ 13) (h10 : c.toNat ≠ 10) :
    c.isWhitespace = false := by
  unfold Char.isWhitespace
  rw [decide_eq_false (char_ne_of_toNat_ne h32),
    decide_eq_false (char_ne_of_toNat_ne h9),
    decide_eq_false (char_ne_of_toNat_ne h13),
    decide_eq_false (char_ne_of_toNat_ne h10)]
  rfl

theorem isWhitespace_toLower (c : Char) :
    (Char.toLower c).isWhitespace = c.isWhitespace := by
  by_cases h : 65 ≤ c.toNat ∧ c.toNat ≤ 90
  · have h2 := toLower_toNat_of_upper h
    rw [isWhitespace_eq_false_of_toNat (by omega) (by omega) (by omega)
        (by omega),
      isWhitespace_eq_false_of_toNat (by omega) (by omega) (by omega)
        (by omega)]
  · rw [toLower_of_not_upper h]

theorem toLower_eq_of_low {c d : Char} (hd : d.toNat < 97 ∨ 122 < d.toNat)
    (h : Char.toLower c = d) : c = d := by
  by_cases hu : 65 ≤ c.toNat ∧ c.toNat ≤ 90
  · have h2 := toLower_toNat_of_upper hu
    have h3 := congrArg Char.toNat h
    omega
  · rwa [toLower_of_not_upper hu] at h

/-! ### Splitter lemmas -/

theorem splitP_ne_nil (p : Char → Bool) (l : Str) : splitP p l ≠ [] := by
  induction l with
  | nil => simp [splitP]
  | cons c cs ih =>
    rw [splitP]
    split
    · simp
    · cases h : splitP p cs with
      | nil => simp
      | cons t ts => simp [h]

theorem mem_splitP_sep_free {p : Char → Bool} {l s : Str}
    (hs : s ∈ splitP p l) : ∀ c ∈ s, p c = false := by
  induction l generalizing s with
  | nil =>
    simp only [splitP, List.mem_singleton] at hs
    subst hs; simp
  | cons c cs ih =>
    rw [splitP] at hs
    split at hs
    · rcases List.mem_cons.1 hs with h | h
      · subst h; simp
      · exact ih h
    · next hc =>
      rcases hh : splitP p cs with _ | ⟨t, ts⟩
      · exact absurd hh (splitP_ne_nil p cs)
      · rw [hh] at hs
        rcases List.mem_cons.1 hs with h | h
        · subst h
          intro d hd
          rcases List.mem_cons.1 hd with h | h
          · subst h; exact Bool.eq_false_iff.2 hc
          · exact ih (by rw [hh]; exact List.mem_cons_self t ts) d h
        · exact ih (by rw [hh]; exact List.mem_cons_of_mem t h)

theorem splitP_sep_free_eq {p : Char → Bool} {x : Str}
    (hx : ∀ c ∈ x, p c = false) : splitP p x = [x] := by
  induction x with
  | nil => rfl
  | cons c cs ih =>
    rw [splitP, if_neg (by simp [hx c (List.mem_cons_self c cs)]),
      ih fun d hd => hx d (List.mem_cons_of_mem c hd)]

theorem splitP_append_sep {p : Char → Bool} {d : Char} (hd : p d = true)
    {x : Str} (hx : ∀ c ∈ x, p c = false) (r : Str) :
    splitP p (x ++ d :: r) = x :: splitP p r := by
  induction x with
  | nil => simp [splitP, hd]
  | cons c cs ih =>
    rw [List.cons_append, splitP,
      if_neg (by simp [hx c (List.mem_cons_self c cs)]),
      ih fun e he => hx e (List.mem_cons_of_mem c he)]

theorem intercalate_two (d : Char) (x y : Str) (r : List Str) :
    List.intercalate [d] (x :: y :: r) =
      x ++ d :: List.intercalate [d] (y :: r) := by
  simp [List.intercalate, List.intersperse]

theorem intercalate_one (d : Char) (x : Str) :
    List.intercalate [d] [x] = x := by
  simp [List.intercalate]

theorem splitP_intercalate {p : Char → Bool} {d : Char} (hd : p d = true) :
    ∀ l : List Str, l ≠ [] → (∀ s ∈ l, ∀ c ∈ s, p c = false) →
      splitP p (List.intercalate [d] l) = l := by
  intro l
  induction l with
  | nil => intro h; exact absurd rfl h
  | cons x xs ih =>
    intro _ hfree
    cases xs with
    | nil =>
      rw [intercalate_one,
        splitP_sep_free_eq (hfree x (List.mem_cons_self x []))]
    | cons y ys =>
      rw [intercalate_two, splitP_append_sep hd
          (hfree x (List.mem_cons_self x (y :: ys))),
        ih (by simp) fun s hs c hc =>
          hfree s (List.mem_cons_of_mem x hs) c hc]

/-! ### Strip and lower lemmas -/

theorem head_of_dropWhile {p : Char → Bool} {l : Str} {x : Char}
    (h : (l.dropWhile p).head? = some x) : p x = false := by
  have hh := List.head?_dropWhile_not p l
  rw [h] at hh
  exact hh

theorem dropWhile_eq_self_of_head {p : Char → Bool} {l : Str}
    (h : ∀ x, l.head? = some x → p x = false) : l.dropWhile p = l := by
  cases l with
  | nil => rfl
  | cons c cs =>
    rw [List.dropWhile_cons, if_neg (by simp [h c rfl])]

theorem pyStrip_nil : pyStrip [] = [] := rfl

theorem mem_pyStrip {l : Str} {x : Char} (h : x ∈ pyStrip l) : x ∈ l := by
  unfold pyStrip at h
  rw [List.mem_reverse] at h
  have h2 := (List.dropWhile_suffix Char.isWhitespace).subset h
  rw [List.mem_reverse] at h2
  exact (List.dropWhile_suffix Char.isWhitespace).subset h2

theorem pyStrip_idem (l : Str) : pyStrip (pyStrip l) = pyStrip l := by
  unfold pyStrip
  set u := l.dropWhile Char.isWhitespace with hu
  set v := u.reverse.dropWhile Char.isWhitespace with hv
  rcases hvn : v with _ | ⟨b, bs⟩
  · simp
  · have hvne : v ≠ [] := by rw [hvn]; simp
    have hune : u ≠ [] := by
      intro h
      rw [h] at hv
      simp at hv
      exact hvne hv
    -- the head of `v.reverse` is the last of `v`, i.e. the head of `u`
    have hlast : v.getLast? = u.reverse.getLast? := by
      rcases List.dropWhile_suffix (l := u.reverse)
          (p := Char.isWhitespace) with ⟨pre, hpre⟩
      rw [← hv] at hpre
      rw [← hpre, List.getLast?_append]
      rcases hgl : v.getLast? with _ | g
      · rw [hvn] at hgl; simp at hgl
      · rfl
    have hheadu : ∀ x, u.head? = some x → x.isWhitespace = false := by
      intro x hx
      exact head_of_dropWhile (by rw [← hu, hx])
    have step1 : v.reverse.dropWhile Char.isWhitespace = v.reverse := by
      apply dropWhile_eq_self_of_head
      intro x hx
      rw [List.head?_reverse, hlast, List.getLast?_reverse] at hx
      exact hheadu x hx
    rw [← hvn, step1, List.reverse_reverse]
    have step2 : v.dropWhile Char.isWhitespace = v := by
      apply dropWhile_eq_self_of_head
      intro x hx
      exact head_of_dropWhile (by rw [← hv, hx])
    rw [step2]

theorem dropWhile_map_of_inv {f : Char → Char} {p : Char → Bool}
    (hf : ∀ c, p (f c) = p c) (l : Str) :
    (l.map f).dropWhile p = (l.dropWhile p).map f := by
  induction l with
  | nil => rfl
  | cons c cs ih =>
    rw [List.map_cons, List.dropWhile_cons, List.dropWhile_cons, hf c]
    split
    · exact ih
    · rfl

theorem pyStrip_pyLower_comm (l : Str) :
    pyStrip (pyLower l) = pyLower (pyStrip l) := by
  unfold pyStrip pyLower
  rw [dropWhile_map_of_inv isWhitespace_toLower, ← List.map_reverse,
    dropWhile_map_of_inv isWhitespace_toLower, ← List.map_reverse]

theorem pyLower_idem (l : Str) : pyLower (pyLower l) = pyLower l := by
  unfold pyLower
  rw [List.map_map]
  exact List.map_congr_left fun c _ => toLower_toLower c

/-! ### Properties of normalized tokens -/

theorem toLower_beq_sep {c d : Char} (hd : d.toNat < 97 ∨ 122 < d.toNat)
    (h : (Char.toLower c == d) = true) : (c == d) = true := by
  rw [beq_iff_eq] at h ⊢
  exact toLower_eq_of_low hd h

theorem sepOf_toLower {mode : SplitMode} {c : Char}
    (h : sepOf mode (Char.toLower c) = true) : sepOf mode c = true := by
  cases mode with
  | auto =>
    simp only [sepOf, isAutoSep, Bool.or_eq_true] at h ⊢
    rcases h with ((((h | h) | h) | h) | h)
    · exact Or.inl (Or.inl (Or.inl (Or.inl
        (toLower_beq_sep (by left; decide) h))))
    · exact Or.inl (Or.inl (Or.inl (Or.inr
        (toLower_beq_sep (by left; decide) h))))
    · exact Or.inl (Or.inl (Or.inr (toLower_beq_sep (by left; decide) h)))
    · exact Or.inl (Or.inr (toLower_beq_sep (by left; decide) h))
    · exact Or.inr (toLower_beq_sep (by right; decide) h)
  | newlines => exact toLower_beq_sep (by left; decide) h
  | commas => exact toLower_beq_sep (by left; decide) h
  | tabs => exact toLower_beq_sep (by left; decide) h
  | semicolons => exact toLower_beq_sep (by left; decide) h
  | pipes => exact toLower_beq_sep (by right; decide) h

theorem clean1_false_eq (p : Str) :
    clean1 false p =
      (if pyLower (pyStrip p) = [] then none
       else some (pyLower (pyStrip p))) := rfl

theorem clean1_true_eq (p : Str) :
    clean1 true p = (if pyStrip p = [] then none else some (pyStrip p)) := rfl

theorem clean1_fixed {cs : Bool} {s : Str} (h1 : s ≠ [])
    (h2 : pyStrip s = s) (h3 : cs = false → pyLower s = s) :
    clean1 cs s = some s := by
  cases cs with
  | false => rw [clean1_false_eq, h2, h3 rfl, if_neg h1]
  | true => rw [clean1_true_eq, h2, if_neg h1]

/-- Every token produced by `coerce_items` is non-empty, already stripped,
already lower-cased when matching case-insensitively, and free of the
mode's separator characters. -/
theorem mem_coerce_items_props {t : Str} {mode : SplitMode} {cs : Bool}
    {s : Str} (hs : s ∈ coerce_items t mode cs) :
    s ≠ [] ∧ pyStrip s = s ∧ (cs = false → pyLower s = s) ∧
      ∀ c ∈ s, sepOf mode c = false := by
  unfold coerce_items at hs
  split at hs
  · simp at hs
  · rw [List.mem_toFinset, List.mem_filterMap] at hs
    rcases hs with ⟨p, hp, hcl⟩
    have hfree := mem_splitP_sep_free hp
    cases cs with
    | false =>
      rw [clean1_false_eq] at hcl
      split at hcl
      · exact absurd hcl (by simp)
      · next hne =>
        rw [Option.some_inj] at hcl
        rw [← hcl]
        refine ⟨hne, ?_, fun _ => pyLower_idem _, ?_⟩
        · rw [pyStrip_pyLower_comm, pyStrip_idem]
        · intro c hc
          rcases List.mem_map.1 hc with ⟨c0, hc0, hlc⟩
          have hc0p : sepOf mode c0 = false := hfree c0 (mem_pyStrip hc0)
          rcases hb : sepOf mode c with _ | _
          · rfl
          · rw [← hlc] at hb
            rw [sepOf_toLower hb] at hc0p
            exact absurd hc0p (by simp)
    | true =>
      rw [clean1_true_eq] at hcl
      split at hcl
      · exact absurd hcl (by simp)
      · next hne =>
        rw [Option.some_inj] at hcl
        rw [← hcl]
        exact ⟨hne, pyStrip_idem p, by simp,
          fun c hc => hfree c (mem_pyStrip hc)⟩

theorem filterMap_id_of_mem {g : Str → Option Str} :
    ∀ {l : List Str}, (∀ s ∈ l, g s = some s) → l.filterMap g = l := by
  intro l
  induction l with
  | nil => intro _; rfl
  | cons x xs ih =>
    intro h
    rw [List.filterMap_cons, h x (List.mem_cons_self x xs),
      ih fun s hs => h s (List.mem_cons_of_mem x hs)]

theorem intercalate_nil_char (d : Char) : List.intercalate [d] ([] : List Str) = [] := rfl

theorem intercalate_ne_nil {x : Str} (hx : x ≠ []) (xs : List Str) (d : Char) :
    List.intercalate [d] (x :: xs) ≠ [] := by
  cases xs with
  | nil => rw [intercalate_one]; exact hx
  | cons y ys =>
    rw [intercalate_two]
    intro h
    rcases List.append_eq_nil.1 h with ⟨_, h2⟩
    exact absurd h2 (by simp)

/-- C10: normalizing under the Auto policy, joining the resulting tokens
(in any enumeration order of the set) by newlines, and normalizing again
under the newline policy with the same case flag, returns the same set. -/
theorem claim_C10_roundtrip (t : Str) (cs : Bool) (l : List Str)
    (hl : l.toFinset = coerce_items t .auto cs) :
    coerce_items (List.intercalate ['\n'] l) .newlines cs
      = coerce_items t .auto cs := by
  have props : ∀ s ∈ l,
      s ≠ [] ∧ pyStrip s = s ∧ (cs = false → pyLower s = s) ∧
        ∀ c ∈ s, sepOf .auto c = false := by
    intro s hs
    exact mem_coerce_items_props (by rw [← hl, List.mem_toFinset] at *; exact hs)
  cases l with
  | nil =>
    rw [intercalate_nil_char]
    rw [show coerce_items [] .newlines cs = ∅ from rfl, ← hl]
    rfl
  | cons x xs =>
    have hx := props x (List.mem_cons_self x xs)
    have htne := intercalate_ne_nil hx.1 xs '\n'
    have hnosep : ∀ s ∈ x :: xs, ∀ c ∈ s, sepOf .newlines c = false := by
      intro s hs c hc
      have h := (props s hs).2.2.2 c hc
      rcases hb : sepOf SplitMode.newlines c with _ | _
      · rfl
      · exfalso
        have hcn : c = '\n' := by
          have := hb
          simp only [sepOf, beq_iff_eq] at this
          exact this
        rw [hcn] at h
        simp [sepOf, isAutoSep] at h
    rw [show coerce_items (List.intercalate ['\n'] (x :: xs)) .newlines cs
        = ((splitP (sepOf .newlines) (List.intercalate ['\n'] (x :: xs))).filterMap
            (clean1 cs)).toFinset from by
      unfold coerce_items; rw [if_neg htne]]
    rw [splitP_intercalate (by simp [sepOf]) (x :: xs) (by simp) hnosep]
    rw [filterMap_id_of_mem fun s hs =>
      clean1_fixed (props s hs).1 (props s hs).2.1 (props s hs).2.2.1]
    exact hl

/-- Witness for C10 at a concrete input: normalizing `"A, b"`, joining the
two resulting tokens by a newline, and normalizing again gives the same
set. -/
theorem claim_C10_roundtrip_witness :
    coerce_items (List.intercalate ['\n'] [['a'], ['b']]) .newlines false
      = coerce_items "A, b".toList .auto false :=
  claim_C10_roundtrip "A, b".toList false [['a'], ['b']] (by decide)

/-- C7 counterexample: the pasted token `"nan"` is NOT discarded by
`coerce_items` — it survives normalization under the Auto policy. -/
theorem claim_C7_counterexample :
    ['n', 'a', 'n'] ∈ coerce_items ['n', 'a', 'n'] .auto false := by decide

theorem flatten_map_filter (q : Str → Bool) (grid : List (List Str)) :
    (grid.map (List.filter q)).flatten = grid.flatten.filter q := by
  induction grid with
  | nil => rfl
  | cons row rest ih =>
    rw [List.map_cons, List.flatten_cons, List.flatten_cons, ih,
      List.filter_append]

/-- C7 amended: only the multi-column tabular file branch discards
`"nan"` cells (case-insensitively); there, such cells never contribute to
the resulting set: deleting them from the grid leaves the result
unchanged.  Pasted-text normalization keeps the pasted token `"nan"`: for
every delimiter policy and case flag, `coerce_items` of `"nan"` contains
`"nan"`. -/
theorem claim_C7_amended :
    (∀ (grid : List (List Str)) (cs : Bool),
      multi_column_to_set
          (grid.map (List.filter fun x => !(pyLower x == nanStr))) cs
        = multi_column_to_set grid cs) ∧
    ∀ (mode : SplitMode) (cs : Bool), nanStr ∈ coerce_items nanStr mode cs := by
  constructor
  · intro grid cs
    unfold multi_column_to_set
    rw [flatten_map_filter, List.filter_filter]
    have hpt : ∀ a ∈ grid.flatten,
        (keepCell a && !(pyLower a == nanStr)) = keepCell a := by
      intro a _
      rcases hk : keepCell a with _ | _
      · simp
      · have h := hk
        unfold keepCell at h
        rw [Bool.and_eq_true] at h
        simp [hk, h.2]
    rw [List.filter_congr hpt]
  · intro mode cs
    cases mode <;> cases cs <;> decide

/-! ### Intersection-engine lemmas -/

theorem mem_foldl_inter (f : String → Finset Str) :
    ∀ (ns : List String) (a : Finset Str) (x : Str),
      x ∈ ns.foldl (fun acc m => acc ∩ f m) a ↔ x ∈ a ∧ ∀ m ∈ ns, x ∈ f m := by
  intro ns
  induction ns with
  | nil => intro a x; simp
  | cons m ms ih =>
    intro a x
    rw [List.foldl_cons, ih, Finset.mem_inter]
    simp [and_assoc]

theorem mem_interList {f : String → Finset Str} {c : List String}
    (hc : c ≠ []) (x : Str) :
    x ∈ interList f c ↔ ∀ n ∈ c, x ∈ f n := by
  cases c with
  | nil => exact absurd rfl hc
  | cons n ns =>
    rw [interList, mem_foldl_inter]
    simp

theorem mem_allCombs {names : List String} {c : List String} :
    c ∈ allCombs names ↔ c.Sublist names ∧ c ≠ [] := by
  unfold allCombs
  rw [List.mem_flatMap]
  constructor
  · rintro ⟨k, _, hc⟩
    rcases List.mem_sublistsLen.1 hc with ⟨hsub, hlen⟩
    refine ⟨hsub, ?_⟩
    intro h
    rw [h] at hlen
    simp at hlen
  · rintro ⟨hsub, hne⟩
    have hlpos : c.length ≠ 0 := fun h => hne (List.length_eq_zero.1 h)
    have hlle : c.length ≤ names.length := hsub.length_le
    refine ⟨c.length - 1, List.mem_range.2 (by omega), ?_⟩
    exact List.mem_sublistsLen.2 ⟨hsub, by omega⟩

theorem list_sum_range (g : ℕ → ℕ) (n : ℕ) :
    ((List.range n).map g).sum = ∑ k ∈ Finset.range n, g k := by
  induction n with
  | zero => rfl
  | succ m ih =>
    rw [List.range_succ, List.map_append, List.sum_append,
      Finset.sum_range_succ, ih]
    simp

theorem length_allCombs (names : List String) :
    (allCombs names).length = 2 ^ names.length - 1 := by
  unfold allCombs
  rw [List.length_flatMap]
  have h1 : (List.map (List.length ∘ fun k => List.sublistsLen (k + 1) names)
      (List.range names.length)).sum
      = ∑ k ∈ Finset.range names.length, names.length.choose (k + 1) := by
    rw [show List.map (List.length ∘ fun k => List.sublistsLen (k + 1) names)
        (List.range names.length)
        = List.map (fun k => names.length.choose (k + 1))
            (List.range names.length) from
      List.map_congr_left fun k _ => List.length_sublistsLen (k + 1) names]
    exact list_sum_range _ _
  rw [h1]
  have h2 := Nat.sum_range_choose names.length
  rw [Finset.sum_range_succ'] at h2
  have h3 : names.length.choose 0 = 1 := Nat.choose_zero_right _
  omega

/-- The shape of every generated row: a non-empty order-preserving
sub-combination of the names, with `inter` the fold of intersections and
`size` its cardinality. -/
theorem row_shape {names : List String} {f : String → Finset Str} {r : IRow}
    (hr : r ∈ sets_to_intersections names f) :
    r.comb ≠ [] ∧ r.comb.Sublist names ∧ r.inter = interList f r.comb ∧
      r.size = r.inter.card := by
  unfold sets_to_intersections at hr
  rcases List.mem_map.1 hr with ⟨c, hc, hrc⟩
  rcases mem_allCombs.1 hc with ⟨hsub, hne⟩
  rw [← hrc]
  exact ⟨hne, hsub, rfl, rfl⟩

/-! ### Union lemmas for the exclusive-elements operation -/

theorem mem_foldl_union :
    ∀ (L : List (Finset Str)) (a : Finset Str) (x : Str),
      x ∈ L.foldl (· ∪ ·) a ↔ x ∈ a ∨ ∃ s ∈ L, x ∈ s := by
  intro L
  induction L with
  | nil => intro a x; simp
  | cons s ss ih =>
    intro a x
    rw [List.foldl_cons, ih, Finset.mem_union]
    simp [or_assoc]

theorem mem_unionAll {L : List (Finset Str)} {x : Str} :
    x ∈ unionAll L ↔ ∃ s ∈ L, x ∈ s := by
  unfold unionAll
  rw [mem_foldl_union]
  simp

/-! ### The computable lexicographic comparison agrees with the library
string order (code-point lexicographic, as in Python). -/

theorem strListLE_iff_le : ∀ a b : List Char, strListLE a b = true ↔ a ≤ b := by
  intro a
  induction a with
  | nil =>
    intro b
    simp [strListLE, List.nil_le]
  | cons x xs ih =>
    intro b
    cases b with
    | nil =>
      simp only [strListLE, Bool.false_eq_true, false_iff]
      intro h
      exact not_lt.2 h (List.nil_lt_cons x xs)
    | cons y ys =>
      rw [strListLE]
      by_cases h1 : x < y
      · rw [if_pos h1]
        simp only [true_iff]
        exact le_of_lt (List.Lex.rel h1)
      · rw [if_neg h1]
        by_cases h2 : y < x
        · rw [if_pos h2]
          simp only [Bool.false_eq_true, false_iff]
          intro h
          exact not_lt.2 h (List.Lex.rel h2)
        · rw [if_neg h2]
          have hxy : x = y := le_antisymm (not_lt.1 h2) (not_lt.1 h1)
          subst hxy
          rw [ih ys]
          constructor
          · exact fun h => List.cons_le_cons x h
          · intro h
            rw [← not_lt] at h ⊢
            exact fun hlt => h (List.Lex.cons hlt)

theorem strListLE_string_le {a b : String} (h : strListLE a.toList b.toList = true) :
    a ≤ b :=
  String.le_iff_toList_le.2 ((strListLE_iff_le _ _).1 h)

instance : IsTotal IRow rowRel where
  total a b := by
    unfold rowRel
    rcases lt_trichotomy a.size b.size with h | h | h
    · exact Or.inr (Or.inl h)
    · rcases le_total (rowLabel a.comb).toList (rowLabel b.comb).toList
        with hl | hl
      · exact Or.inl (Or.inr ⟨h, (strListLE_iff_le _ _).2 hl⟩)
      · exact Or.inr (Or.inr ⟨h.symm, (strListLE_iff_le _ _).2 hl⟩)
    · exact Or.inl (Or.inl h)

instance : IsTrans IRow rowRel where
  trans a b c hab hbc := by
    unfold rowRel at *
    rcases hab with h1 | ⟨h1, h1l⟩ <;> rcases hbc with h2 | ⟨h2, h2l⟩
    · exact Or.inl (h2.trans h1)
    · exact Or.inl (h2 ▸ h1)
    · exact Or.inl (by omega)
    · exact Or.inr ⟨h1.trans h2, (strListLE_iff_le _ _).2
        (le_trans ((strListLE_iff_le _ _).1 h1l) ((strListLE_iff_le _ _).1 h2l))⟩

instance : IsTotal String strRel where
  total a b := by
    unfold strRel
    rcases le_total a.toList b.toList with h | h
    · exact Or.inl ((strListLE_iff_le _ _).2 h)
    · exact Or.inr ((strListLE_iff_le _ _).2 h)

instance : IsTrans String strRel where
  trans a b c hab hbc := by
    unfold strRel at *
    exact (strListLE_iff_le _ _).2
      (le_trans ((strListLE_iff_le _ _).1 hab) ((strListLE_iff_le _ _).1 hbc))

/-! ### Venn claims -/

/-- Scenario A input (spec §8): `X = {a, b, c}`, `Y = {b, c, d}`, used as
the concrete instance for the witnesses below. -/
def scenA : String → Finset Str := fun nm =>
  if nm = "X" then {['a'], ['b'], ['c']} else {['b'], ['c'], ['d']}

/-- C1: for a collection of N non-empty named sets (2 ≤ N ≤ 6), the
intersection table has exactly `2 ^ N - 1` rows, and the rows' name
combinations are exactly the non-empty subsets of the set names (taken in
input order). -/
theorem claim_C1_row_count (names : List String) (f : String → Finset Str)
    (h2 : 2 ≤ names.length) (h6 : names.length ≤ 6) (hnd : names.Nodup)
    (hne : ∀ n ∈ names, (f n).Nonempty) :
    (sorted_intersections names f).length = 2 ^ names.length - 1 ∧
    ∀ c : List String,
      (∃ r ∈ sorted_intersections names f, r.comb = c) ↔
        (c.Sublist names ∧ c ≠ []) := by
  unfold sorted_intersections
  have hperm := List.perm_insertionSort rowRel (sets_to_intersections names f)
  constructor
  · rw [hperm.length_eq]
    unfold sets_to_intersections
    rw [List.length_map]
    exact length_allCombs names
  · intro c
    constructor
    · rintro ⟨r, hr, hc⟩
      have hr2 := hperm.mem_iff.1 hr
      have hs := row_shape hr2
      rw [hc] at hs
      exact ⟨hs.2.1, hs.1⟩
    · rintro ⟨hsub, hcne⟩
      refine ⟨⟨c, interList f c, (interList f c).card⟩, ?_, rfl⟩
      rw [hperm.mem_iff]
      exact List.mem_map.2 ⟨c, mem_allCombs.2 ⟨hsub, hcne⟩, rfl⟩

/-- Witness for C1 on Scenario A: two sets give `2 ^ 2 - 1 = 3` rows. -/
theorem claim_C1_row_count_witness :
    (sorted_intersections ["X", "Y"] scenA).length = 2 ^ 2 - 1 :=
  (claim_C1_row_count ["X", "Y"] scenA (by decide) (by decide) (by decide)
    (by decide)).1

/-- C2: every generated row's element set is the standard intersection of
the member sets named in its combination (membership characterization), a
singleton combination yields that set itself, and the reported size is the
cardinality of the element set. -/
theorem claim_C2_row_semantics (names : List String)
    (f : String → Finset Str) (r : IRow)
    (hr : r ∈ sets_to_intersections names f) :
    (∀ x : Str, x ∈ r.inter ↔ ∀ nm ∈ r.comb, x ∈ f nm) ∧
    (∀ nm, r.comb = [nm] → r.inter = f nm) ∧
    r.size = r.inter.card := by
  rcases row_shape hr with ⟨hne, _, hint, hsz⟩
  refine ⟨?_, ?_, hsz⟩
  · intro x
    rw [hint]
    exact mem_interList hne x
  · intro nm hnm
    rw [hint, hnm]
    rfl

/-- Witness for C2 on Scenario A: in the `X ∩ Y` row, membership is
membership in both sets. -/
theorem claim_C2_row_semantics_witness :
    ['b'] ∈ interList scenA ["X", "Y"] ↔ ∀ nm ∈ ["X", "Y"], ['b'] ∈ scenA nm :=
  (claim_C2_row_semantics ["X", "Y"] scenA
    ⟨["X", "Y"], interList scenA ["X", "Y"],
      (interList scenA ["X", "Y"]).card⟩ (by decide)).1 ['b']

/-- C3: the exclusive-elements operation maps each set name to its members
minus the union of all other sets' members (membership characterization),
and the exclusive regions of distinct names are pairwise disjoint. -/
theorem claim_C3_exclusive (names : List String) (f : String → Finset Str) :
    (∀ k ∈ names, ∀ x : Str,
      x ∈ exclusive_to_each_set names f k ↔
        (x ∈ f k ∧ ∀ k2 ∈ names, k2 ≠ k → x ∉ f k2)) ∧
    (∀ k1 ∈ names, ∀ k2 ∈ names, k1 ≠ k2 →
      Disjoint (exclusive_to_each_set names f k1)
        (exclusive_to_each_set names f k2)) := by
  have hchar : ∀ (k : String) (x : Str),
      x ∈ exclusive_to_each_set names f k ↔
        (x ∈ f k ∧ ∀ k2 ∈ names, k2 ≠ k → x ∉ f k2) := by
    intro k x
    unfold exclusive_to_each_set
    rw [Finset.mem_sdiff, mem_unionAll]
    constructor
    · rintro ⟨h1, h2⟩
      refine ⟨h1, fun k2 hk2 hne hx => h2 ⟨f k2, List.mem_map.2
        ⟨k2, List.mem_filter.2 ⟨hk2, by simp [hne]⟩, rfl⟩, hx⟩⟩
    · rintro ⟨h1, h2⟩
      refine ⟨h1, ?_⟩
      rintro ⟨s, hs, hx⟩
      rcases List.mem_map.1 hs with ⟨k2, hk2f, hfk2⟩
      rcases List.mem_filter.1 hk2f with ⟨hk2mem, hbne⟩
      exact h2 k2 hk2mem (by simpa using hbne) (hfk2 ▸ hx)
  refine ⟨fun k _ x => hchar k x, ?_⟩
  intro k1 h1 k2 h2 hne
  rw [Finset.disjoint_left]
  intro x hx1 hx2
  have c1 := (hchar k1 x).1 hx1
  have c2 := (hchar k2 x).1 hx2
  exact c1.2 k2 h2 (fun e => hne e.symm) c2.1

/-- Witness for C3 on Scenario A: the exclusive regions of `X` and `Y` are
disjoint. -/
theorem claim_C3_exclusive_witness :
    Disjoint (exclusive_to_each_set ["X", "Y"] scenA "X")
      (exclusive_to_each_set ["X", "Y"] scenA "Y") :=
  (claim_C3_exclusive ["X", "Y"] scenA).2 "X" (by decide) "Y" (by decide)
    (by decide)

/-- C6: if one row's combination is contained (as a set of names) in
another's, the first row's size is at least the second's. -/
theorem claim_C6_subset_monotone (names : List String)
    (f : String → Finset Str) (ra rb : IRow)
    (ha : ra ∈ sets_to_intersections names f)
    (hb : rb ∈ sets_to_intersections names f)
    (hsub : ∀ nm ∈ ra.comb, nm ∈ rb.comb) :
    rb.size ≤ ra.size := by
  rcases row_shape ha with ⟨hane, _, hai, has⟩
  rcases row_shape hb with ⟨hbne, _, hbi, hbs⟩
  rw [has, hbs]
  apply Finset.card_le_card
  intro x hx
  rw [hbi, mem_interList hbne] at hx
  rw [hai, mem_interList hane]
  exact fun nm hnm => hx nm (hsub nm hnm)

/-- Witness for C6 on Scenario A: the `X ∩ Y` row is no larger than the
`X` row. -/
theorem claim_C6_subset_monotone_witness :
    (⟨["X", "Y"], interList scenA ["X", "Y"],
        (interList scenA ["X", "Y"]).card⟩ : IRow).size ≤
      (⟨["X"], interList scenA ["X"], (interList scenA ["X"]).card⟩ :
        IRow).size :=
  claim_C6_subset_monotone ["X", "Y"] scenA _ _ (by decide) (by decide)
    (by decide)

/-- C5: the returned table is sorted by size descending, ties broken by
the rendered `" ∩ "`-joined label ascending (code-point lexicographic),
and every row's combination lists the set names in original input order
restricted to that subset (it is an order-preserving sublist of the input
names). -/
theorem claim_C5_sort_order (names : List String) (f : String → Finset Str) :
    List.Sorted (fun a b : IRow =>
        b.size < a.size ∨
          (a.size = b.size ∧ rowLabel a.comb ≤ rowLabel b.comb))
      (sorted_intersections names f) ∧
    ∀ r ∈ sorted_intersections names f, r.comb.Sublist names := by
  constructor
  · have hs := List.sorted_insertionSort rowRel (sets_to_intersections names f)
    unfold sorted_intersections
    refine hs.imp ?_
    intro a b hab
    rcases hab with h | ⟨h, hl⟩
    · exact Or.inl h
    · exact Or.inr ⟨h, strListLE_string_le hl⟩
  · intro r hr
    unfold sorted_intersections at hr
    exact (row_shape ((List.perm_insertionSort rowRel
      (sets_to_intersections names f)).mem_iff.1 hr)).2.1

/-- Witness for C5 on Scenario A: the singleton `Y` row appears in the
sorted table and its combination is the input order restricted to
`{Y}`. -/
theorem claim_C5_sort_order_witness :
    (["Y"] : List String).Sublist ["X", "Y"] :=
  (claim_C5_sort_order ["X", "Y"] scenA).2
    ⟨["Y"], interList scenA ["Y"], (interList scenA ["Y"]).card⟩ (by decide)

/-! ### Enrichment claims -/

/-- C9: when the pasted gene list shares no member with the genes of the
annotation file (the implicit universe/background), the run reports the
empty-overlap warning and ends with an empty enrichment table
(`st.warning` + `st.stop`). -/
theorem claim_C9_empty_overlap (q : Finset Str) (ann : List (String × Str))
    (h : q ∩ annGenes ann = ∅) :
    (gokegg_run q ann).emptyOverlapWarned = true ∧
      (gokegg_run q ann).table = [] := by
  have hfe : filtered_rows q ann = [] := by
    unfold filtered_rows
    rw [List.filter_eq_nil_iff]
    intro r hr
    simp only [decide_eq_true_eq]
    intro hq
    have hg : r.2 ∈ annGenes ann :=
      List.mem_toFinset.2 (List.mem_map.2 ⟨r, hr, rfl⟩)
    have : r.2 ∈ q ∩ annGenes ann := Finset.mem_inter.2 ⟨hq, hg⟩
    rw [h] at this
    exact Finset.not_mem_empty _ this
  unfold gokegg_run
  rw [hfe]
  exact ⟨rfl, rfl⟩

/-- Witness for C9: a query disjoint from the annotation genes warns and
produces no table. -/
theorem claim_C9_empty_overlap_witness :
    (gokegg_run ({['a']} : Finset Str) [("T", ['b'])]).emptyOverlapWarned
        = true ∧
      (gokegg_run ({['a']} : Finset Str) [("T", ['b'])]).table = [] :=
  claim_C9_empty_overlap _ _ (by decide)

/-- C4 counterexample: for query `{g1}` and annotation rows
`(T, g1), (S, g2)` without a p-value column, the code returns p-value
`1.0` for `T`, while the one-sided exact test of the contingency table
`[[1, 0], [0, 1]]` (overlap 1, query size 1, term size 1, universe size 2)
gives `1/2`: the code performs no exact test. -/
theorem claim_C4_counterexample :
    term_stats ({['g', '1']} : Finset Str)
        [("T", ['g', '1']), ("S", ['g', '2'])] = [("T", 1, (1 : ℚ))] ∧
    fisherGreater 1 1 1 2 = 1 / 2 ∧ (1 : ℚ) ≠ 1 / 2 := by
  refine ⟨by decide, ?_, by norm_num⟩
  unfold fisherGreater hyperProb
  rw [show min 1 1 = 1 from rfl, Finset.Icc_self, Finset.sum_singleton,
    show Nat.choose 1 1 = 1 from rfl, show (2 : ℕ) - 1 = 1 from rfl,
    show (1 : ℕ) - 1 = 0 from rfl, show Nat.choose 1 0 = 1 from rfl,
    show Nat.choose 2 1 = 2 from rfl]
  norm_num

/-- C4 amended: the enrichment computation performs no exact test — with
no p-value column in the annotation every returned record's p-value is
`1.0`; a term yields a record exactly when some of its annotation rows
carries a query gene (overlap > 0); in particular for query `{g1, g2}`
and term `T` annotated to `{g1, g3}` the returned record is
`(T, 1, 1.0)`: p-value `1.0`, included since its overlap `1 > 0`. -/
theorem claim_C4_amended :
    (∀ (q : Finset Str) (ann : List (String × Str)) (r : String × ℕ × ℚ),
        r ∈ term_stats q ann → r.2.2 = 1) ∧
    (∀ (q : Finset Str) (ann : List (String × Str)) (t : String),
        (∃ r ∈ term_stats q ann, r.1 = t) ↔ ∃ g ∈ q, (t, g) ∈ ann) ∧
    term_stats ({['g', '1'], ['g', '2']} : Finset Str)
        [("T", ['g', '1']), ("T", ['g', '3'])] = [("T", 1, (1 : ℚ))] := by
  refine ⟨?_, ?_, by decide⟩
  · intro q ann r hr
    unfold term_stats at hr
    rcases List.mem_map.1 hr with ⟨t, _, hrt⟩
    rw [← hrt]
  · intro q ann t
    have hterms : ∀ t0 : String,
        (t0 ∈ (((filtered_rows q ann).map Prod.fst).dedup).insertionSort
            strRel) ↔ ∃ row ∈ ann, row.2 ∈ q ∧ row.1 = t0 := by
      intro t0
      rw [(List.perm_insertionSort strRel _).mem_iff, List.mem_dedup,
        List.mem_map]
      constructor
      · rintro ⟨row, hrow, hfst⟩
        unfold filtered_rows at hrow
        rcases List.mem_filter.1 hrow with ⟨hmem, hq⟩
        exact ⟨row, hmem, by simpa using hq, hfst⟩
      · rintro ⟨row, hmem, hq, hfst⟩
        refine ⟨row, ?_, hfst⟩
        unfold filtered_rows
        exact List.mem_filter.2 ⟨hmem, by simpa using hq⟩
    constructor
    · rintro ⟨r, hr, hrt⟩
      unfold term_stats at hr
      rcases List.mem_map.1 hr with ⟨t0, ht0, hrt0⟩
      rcases (hterms t0).1 ht0 with ⟨row, hmem, hq, hfst⟩
      have ht0t : t0 = t := by rw [← hrt, ← hrt0]
      exact ⟨row.2, hq, by rw [← ht0t, ← hfst]; exact hmem⟩
    · rintro ⟨g, hg, hmem⟩
      have ht : t ∈ (((filtered_rows q ann).map Prod.fst).dedup).insertionSort
          strRel := (hterms t).2 ⟨(t, g), hmem, hg, rfl⟩
      exact ⟨(t, ((filtered_rows q ann).filter fun r => r.1 == t).length,
        (1 : ℚ)), List.mem_map.2 ⟨t, ht, rfl⟩, rfl⟩

/-- Witness for C4 amended: the Scenario-B record has p-value `1`. -/
theorem claim_C4_amended_witness :
    (("T", 1, (1 : ℚ)) : String × ℕ × ℚ).2.2 = 1 :=
  claim_C4_amended.1 ({['g', '1'], ['g', '2']} : Finset Str)
    [("T", ['g', '1']), ("T", ['g', '3'])] ("T", 1, (1 : ℚ)) (by decide)

/-- C8 counterexample: with the duplicated annotation row `(T, g)` and
query `{g}`, the record for `T` reports `gene_count = 2` (rows are
counted, not distinct genes), exceeding
`min(term_size, query_size) = 1`. -/
theorem claim_C8_counterexample :
    ("T", 2, (1 : ℚ)) ∈ term_stats ({['g']} : Finset Str)
        [("T", ['g']), ("T", ['g'])] ∧
    ¬(2 ≤ min (term_size [("T", ['g']), ("T", ['g'])] "T")
        ({['g']} : Finset Str).card) := by
  exact ⟨by decide, by decide⟩

/-- C8 amended: provided the annotation has no repeated `(Term, GeneID)`
row, every record's `gene_count` is at most
`min(term_size, query_size)`.  (With repeated rows the bound fails, see
the counterexample: `("GeneID", "count")` counts rows, not distinct
genes.) -/
theorem claim_C8_amended (q : Finset Str) (ann : List (String × Str))
    (hnd : ann.Nodup) (r : String × ℕ × ℚ) (hr : r ∈ term_stats q ann) :
    r.2.1 ≤ min (term_size ann r.1) q.card := by
  unfold term_stats at hr
  rcases List.mem_map.1 hr with ⟨t, _, hrt⟩
  rw [← hrt]
  show ((filtered_rows q ann).filter fun row => row.1 == t).length ≤
    min (term_size ann t) q.card
  set L := (filtered_rows q ann).filter fun row => row.1 == t with hL
  have hsubl : L.Sublist ann := by
    rw [hL]
    exact (List.filter_sublist _).trans (List.filter_sublist _)
  have hLnd : L.Nodup := hsubl.nodup hnd
  have hLt : ∀ row ∈ L, row.1 = t := by
    intro row h
    have h2 := (List.mem_filter.1 h).2
    simpa using h2
  have hLq : ∀ row ∈ L, row.2 ∈ q := by
    intro row h
    have h2 := (List.mem_filter.1 h).1
    unfold filtered_rows at h2
    have h3 := (List.mem_filter.1 h2).2
    simpa using h3
  have hmapnd : (L.map Prod.snd).Nodup := by
    refine hLnd.map_on ?_
    intro x hx y hy hxy
    exact Prod.ext ((hLt x hx).trans (hLt y hy).symm) hxy
  have hlen : L.length = (L.map Prod.snd).toFinset.card := by
    rw [List.toFinset_card_of_nodup hmapnd, List.length_map]
  rw [hlen]
  apply le_min
  · apply Finset.card_le_card
    intro g hg
    rw [List.mem_toFinset] at hg
    rcases List.mem_map.1 hg with ⟨row, hrow, hsnd⟩
    rw [List.mem_toFinset]
    refine List.mem_map.2 ⟨row, ?_, hsnd⟩
    refine List.mem_filter.2 ⟨hsubl.subset hrow, ?_⟩
    rw [hLt row hrow]
    simp
  · apply Finset.card_le_card
    intro g hg
    rw [List.mem_toFinset] at hg
    rcases List.mem_map.1 hg with ⟨row, hrow, hsnd⟩
    rw [← hsnd]
    exact hLq row hrow

/-- Witness for C8 amended: with a duplicate-free annotation the bound
holds at a concrete input. -/
theorem claim_C8_amended_witness :
    (("T", 1, (1 : ℚ)) : String × ℕ × ℚ).2.1 ≤
      min (term_size [("T", ['g'])] ("T", 1, (1 : ℚ)).1)
        ({['g']} : Finset Str).card :=
  claim_C8_amended ({['g']} : Finset Str) [("T", ['g'])] (by decide)
    ("T", 1, (1 : ℚ)) (by decide)
